import Mathlib

/-!
Verification of the `jsonb` binary serialization codec (`src/main.rs`).

The Rust source defines a JSON-like value type `JValue`, an encoder
(`serialize_to`, `write_length`, `write_str`) writing to a byte sink, and a
decoder (`read_from`, `read_length`) reading from a byte source.  We embed the
code shallowly:

* bytes are `Nat` (a `u8` is a `Nat` below 256, a `u64` a `Nat` below `2 ^ 64`,
  with masking `% 2 ^ 64` written out exactly where the Rust types truncate);
* the byte sink (`W : Write`, instantiated with a growable buffer) becomes
  explicit state passing: an encoder function takes the buffer written so far
  and returns the extended buffer together with the count of bytes written,
  mirroring the `std::io::Result<usize>` return value (encoding into a buffer
  never hits an I/O error, so the `Result` wrapper is dropped);
* the byte source (`R : Read`) becomes the list of bytes not yet consumed; a
  reader function returns the parsed result paired with the remaining bytes,
  or a `DErr`;
* an `f64` is represented by its 64-bit IEEE-754 bit pattern, a `Nat` below
  `2 ^ 64`: the codec only moves the bits (`to_be_bytes` / `from_be_bytes`),
  so this is exact;
* a `&str` is represented by its UTF-8 byte list;
* the decoder's two `panic!` sites (unknown marker byte, `from_utf8(..).unwrap()`)
  and the checked-arithmetic overflow of `<< shift` in `read_length` (the shift
  amount can reach 70 for a `u64`) are modelled as distinguished error values
  `panicInvalidMarker`, `panicInvalidUtf8` and `panicShiftOverflow`, kept apart
  from the I/O error `eof` (`read_exact` on an exhausted source) that the code
  genuinely returns to its caller;
* the recursive decoder terminates because every recursive step consumes input;
  in Lean we make this explicit with a fuel parameter, and `decode` supplies
  `2 * length + 1` fuel, which is proven sufficient (`read_from_fuel_enough`),
  so `outOfFuel` is unreachable from `decode`.
-/

namespace Jsonb

/-- Errors a decoding run can end in.  `eof` models the `std::io::Error` that
`read_exact` returns on a truncated source; the three `panic*` constructors
model the process aborts in the source (`panic!("Invalid marker")`,
`from_utf8(..).unwrap()`, and the left-shift overflow in `read_length` under
checked arithmetic); `outOfFuel` is the artefact of the fuel-based embedding
and is proven unreachable for the fuel that `decode` supplies. -/
inductive DErr where
  | eof
  | panicInvalidMarker
  | panicInvalidUtf8
  | panicShiftOverflow
  | outOfFuel
deriving DecidableEq

/-- The value model from the source: `enum JValue` with `Object`, `Array`,
`String`, `Number`, `True`, `False`, `Null`.  Strings are UTF-8 byte lists,
numbers are IEEE-754 bit patterns. -/
inductive JValue where
  | Object (ps : List (List Nat × JValue))
  | Array (vs : List JValue)
  | String (s : List Nat)
  | Number (bits : Nat)
  | True
  | False
  | Null

/-- UTF-8 validity of a byte list, as enforced by `std::str::from_utf8`:
ASCII, and 2-, 3-, 4-byte sequences with the standard lead/continuation
ranges, rejecting overlong forms, surrogates (`ED A0..`) and code points
above `U+10FFFF` (`F4 90..`, `F5..FF`). -/
def validUtf8 : List Nat → Bool
  | [] => true
  | b :: rest =>
    if b < 0x80 then validUtf8 rest
    else if b < 0xC2 then false
    else if b < 0xE0 then
      match rest with
      | b2 :: rest2 =>
        if 0x80 ≤ b2 ∧ b2 < 0xC0 then validUtf8 rest2 else false
      | [] => false
    else if b < 0xF0 then
      match rest with
      | b2 :: b3 :: rest3 =>
        if (if b = 0xE0 then 0xA0 ≤ b2 ∧ b2 < 0xC0
            else if b = 0xED then 0x80 ≤ b2 ∧ b2 < 0xA0
            else 0x80 ≤ b2 ∧ b2 < 0xC0) ∧ 0x80 ≤ b3 ∧ b3 < 0xC0 then
          validUtf8 rest3
        else false
      | _ => false
    else if b < 0xF5 then
      match rest with
      | b2 :: b3 :: b4 :: rest4 =>
        if (if b = 0xF0 then 0x90 ≤ b2 ∧ b2 < 0xC0
            else if b = 0xF4 then 0x80 ≤ b2 ∧ b2 < 0x90
            else 0x80 ≤ b2 ∧ b2 < 0xC0) ∧
           (0x80 ≤ b3 ∧ b3 < 0xC0) ∧ 0x80 ≤ b4 ∧ b4 < 0xC0 then
          validUtf8 rest4
        else false
      | _ => false
    else false

/-- Model of `f64::to_be_bytes` on the bit pattern `n < 2 ^ 64`: the eight bytes of
`n`, most significant first. -/
def beBytes8 (n : Nat) : List Nat :=
  [n / 2 ^ 56 % 256, n / 2 ^ 48 % 256, n / 2 ^ 40 % 256, n / 2 ^ 32 % 256,
   n / 2 ^ 24 % 256, n / 2 ^ 16 % 256, n / 2 ^ 8 % 256, n % 256]

/-- Model of `u64::from_be_bytes` on a list of eight bytes. -/
def fromBeBytes8 (l : List Nat) : Nat :=
  l.foldl (fun acc b => acc * 256 + b) 0

/-- Loop body of `write_length` (source lines 72-81).  The Rust loop
`while length >= 0b1000_0000` terminates because `length >>= 7` shrinks the
value; the first argument is fuel making that termination structural, and
`n + 1` fuel (supplied by `write_length`) is always enough. -/
def write_length_aux : Nat → Nat → List Nat
  | 0, n => [n % 256]
  | f + 1, n =>
    if 128 ≤ n then (128 ||| n % 256) :: write_length_aux f (n >>> 7)
    else [n % 256]

/-- The bytes emitted by `write_length`: 7-bit groups, least significant
first, high bit of each byte a continuation flag.  (`0b1000_0000 | (length as u8)`
is `128 ||| n % 256`, the final byte `length as u8` is `n % 256`.) -/
def write_length (n : Nat) : List Nat :=
  write_length_aux (n + 1) n

/-- Model of `write_str` (source lines 83-88): length prefix then the raw UTF-8 bytes,
appended to the sink `w`; the second component is the count of bytes
written. -/
def write_str (w : List Nat) (s : List Nat) : List Nat × Nat :=
  (w ++ write_length s.length ++ s, (write_length s.length).length + s.length)

/-- Marker (tag) bytes, source lines 90-96. -/
def NULL_MARKER : Nat := 0
def TRUE_MARKER : Nat := 1
def FALSE_MARKER : Nat := 2
def NUMBER_MARKER : Nat := 3
def STRING_MARKER : Nat := 4
def ARRAY_MARKER : Nat := 5
def OBJECT_MARKER : Nat := 6

mutual
/-- Model of `serialize_to` (source lines 98-140): append the encoding of a value to
the sink `w`, returning the new sink contents and the byte count written. -/
def serialize_to : List Nat → JValue → List Nat × Nat
  | w, .Null => (w ++ [NULL_MARKER], 1)
  | w, .True => (w ++ [TRUE_MARKER], 1)
  | w, .False => (w ++ [FALSE_MARKER], 1)
  | w, .Number n => (w ++ [NUMBER_MARKER] ++ beBytes8 n, 1 + 8)
  | w, .String s =>
    match write_str (w ++ [STRING_MARKER]) s with
    | (w1, c1) => (w1, 1 + c1)
  | w, .Array vs =>
    serialize_list (w ++ [ARRAY_MARKER] ++ write_length vs.length)
      (1 + (write_length vs.length).length) vs
  | w, .Object ps =>
    serialize_pairs (w ++ [OBJECT_MARKER] ++ write_length ps.length)
      (1 + (write_length ps.length).length) ps

/-- The `for value in values` loop of the `Array` arm, accumulating the byte
count `c`. -/
def serialize_list : List Nat → Nat → List JValue → List Nat × Nat
  | w, c, [] => (w, c)
  | w, c, v :: vs =>
    match serialize_to w v with
    | (w1, c1) => serialize_list w1 (c + c1) vs

/-- The `for (key, value) in values` loop of the `Object` arm. -/
def serialize_pairs : List Nat → Nat → List (List Nat × JValue) → List Nat × Nat
  | w, c, [] => (w, c)
  | w, c, (k, v) :: ps =>
    match write_str w k with
    | (w1, c1) =>
      match serialize_to w1 v with
      | (w2, c2) => serialize_pairs w2 (c + c1 + c2) ps
end

/-- The full encoding of a value: `serialize_to` run on an empty sink. -/
def serialize (v : JValue) : List Nat :=
  (serialize_to [] v).1

/-- Pure view of the bytes the `Array` loop appends. -/
def serializeL (vs : List JValue) : List Nat :=
  (serialize_list [] 0 vs).1

/-- Pure view of the bytes the `Object` loop appends. -/
def serializeP (ps : List (List Nat × JValue)) : List Nat :=
  (serialize_pairs [] 0 ps).1

/-- Loop body of `read_length` (source lines 142-155): `length` and `shift`
are the accumulator and shift amount.  Each iteration reads one byte (`eof`
if the source is exhausted), evaluates `((buf[0] & 0b0111_1111) as u64) << shift`
— which under checked arithmetic panics once `shift` reaches 64, modelled by
`panicShiftOverflow` — ORs it into `length` (a `u64`, hence the `% 2 ^ 64`
mask of the shifted 7-bit group), and stops when the continuation bit
`buf[0] & 0b1000_0000` is clear. -/
def read_length_aux : Nat → Nat → List Nat → Except DErr (Nat × List Nat)
  | _, _, [] => .error .eof
  | length, shift, b :: rest =>
    if 64 ≤ shift then .error .panicShiftOverflow
    else
      let length := length ||| ((b &&& 127) <<< shift) % 2 ^ 64
      if b &&& 128 = 0 then .ok (length, rest)
      else read_length_aux length (shift + 7) rest

/-- Model of `read_length` (source lines 142-155): varint decoding, returning the
value and the unconsumed bytes. -/
def read_length (l : List Nat) : Except DErr (Nat × List Nat) :=
  read_length_aux 0 0 l

mutual
/-- Model of `read_from` (source lines 157-198): read one marker byte and dispatch.
The fuel argument only makes the recursion structural; `decode` supplies
enough for it never to run out. -/
def read_from : Nat → List Nat → Except DErr (JValue × List Nat)
  | 0, _ => .error .outOfFuel
  | _ + 1, [] => .error .eof
  | f + 1, t :: rest =>
    if t = NULL_MARKER then .ok (.Null, rest)
    else if t = TRUE_MARKER then .ok (.True, rest)
    else if t = FALSE_MARKER then .ok (.False, rest)
    else if t = NUMBER_MARKER then
      if rest.length < 8 then .error .eof
      else .ok (.Number (fromBeBytes8 (rest.take 8)), rest.drop 8)
    else if t = STRING_MARKER then
      match read_length rest with
      | .error e => .error e
      | .ok (len, r) =>
        if r.length < len then .error .eof
        else if validUtf8 (r.take len) then .ok (.String (r.take len), r.drop len)
        else .error .panicInvalidUtf8
    else if t = ARRAY_MARKER then
      match read_length rest with
      | .error e => .error e
      | .ok (len, r) =>
        match read_many f len r with
        | .error e => .error e
        | .ok (vs, r2) => .ok (.Array vs, r2)
    else if t = OBJECT_MARKER then
      match read_length rest with
      | .error e => .error e
      | .ok (len, r) =>
        match read_pairs f len r with
        | .error e => .error e
        | .ok (ps, r2) => .ok (.Object ps, r2)
    else .error .panicInvalidMarker

/-- The `for _ in 0..length` loop of the `Array` arm. -/
def read_many : Nat → Nat → List Nat → Except DErr (List JValue × List Nat)
  | _, 0, l => .ok ([], l)
  | 0, _ + 1, _ => .error .outOfFuel
  | f + 1, n + 1, l =>
    match read_from f l with
    | .error e => .error e
    | .ok (v, r) =>
      match read_many f n r with
      | .error e => .error e
      | .ok (vs, r2) => .ok (v :: vs, r2)

/-- The `for _ in 0..length` loop of the `Object` arm: key length, key bytes
(checked UTF-8 via `from_utf8(..).unwrap()`), then the value. -/
def read_pairs : Nat → Nat → List Nat → Except DErr (List (List Nat × JValue) × List Nat)
  | _, 0, l => .ok ([], l)
  | 0, _ + 1, _ => .error .outOfFuel
  | f + 1, n + 1, l =>
    match read_length l with
    | .error e => .error e
    | .ok (klen, r) =>
      if r.length < klen then .error .eof
      else if validUtf8 (r.take klen) then
        match read_from f (r.drop klen) with
        | .error e => .error e
        | .ok (v, r2) =>
          match read_pairs f n r2 with
          | .error e => .error e
          | .ok (ps, r3) => .ok ((r.take klen, v) :: ps, r3)
      else .error .panicInvalidUtf8
end

/-- Decode a byte stream: `read_from` with fuel `2 * length + 1`, which
`read_from_fuel_enough` proves sufficient. -/
def decode (l : List Nat) : Except DErr (JValue × List Nat) :=
  read_from (2 * l.length + 1) l

mutual
/-- A value is constructible in the source exactly when every `Number` bit
pattern fits in a `u64`, every string (and object key) is valid UTF-8, and
every length fits in a `u64` (strings, arrays and objects are Rust `Vec`s /
`&str`s, whose lengths always fit). -/
def wfB : JValue → Bool
  | .Null => true
  | .True => true
  | .False => true
  | .Number n => decide (n < 2 ^ 64)
  | .String s => validUtf8 s && decide (s.length < 2 ^ 64)
  | .Array vs => decide (vs.length < 2 ^ 64) && wfBL vs
  | .Object ps => decide (ps.length < 2 ^ 64) && wfBP ps

/-- Conjunction of `wfB` over every element of an array. -/
def wfBL : List JValue → Bool
  | [] => true
  | v :: vs => wfB v && wfBL vs

/-- Conjunction of `wfB` over every pair of an object: valid UTF-8 key of `u64` length, and a
constructible value. -/
def wfBP : List (List Nat × JValue) → Bool
  | [] => true
  | (k, v) :: ps =>
    validUtf8 k && decide (k.length < 2 ^ 64) && wfB v && wfBP ps
end

/-! ### An induction principle for the nested inductive `JValue` -/

/-- Structural induction over `JValue`, with membership hypotheses for the
lists nested in `Array` and `Object`. -/
theorem JValue.inductionOn {motive : JValue → Prop}
    (hObj : ∀ ps, (∀ kv ∈ ps, motive kv.2) → motive (.Object ps))
    (hArr : ∀ vs, (∀ v ∈ vs, motive v) → motive (.Array vs))
    (hStr : ∀ s, motive (.String s))
    (hNum : ∀ n, motive (.Number n))
    (hTrue : motive .True) (hFalse : motive .False) (hNull : motive .Null) :
    ∀ v, motive v := by
  have key : ∀ n v, sizeOf v ≤ n → motive v := by
    intro n
    induction n with
    | zero =>
      intro v hv
      cases v <;> simp at hv
    | succ n ih =>
      intro v hv
      cases v with
      | Object ps =>
        refine hObj ps fun kv hkv => ?_
        have h1 := List.sizeOf_lt_of_mem hkv
        obtain ⟨k, w⟩ := kv
        have h2 : sizeOf (k, w) = 1 + sizeOf k + sizeOf w := by simp
        simp only [JValue.Object.sizeOf_spec] at hv
        exact ih w (by omega)
      | Array vs =>
        refine hArr vs fun v hvm => ?_
        have h1 := List.sizeOf_lt_of_mem hvm
        simp only [JValue.Array.sizeOf_spec] at hv
        exact ih v (by omega)
      | String s => exact hStr s
      | Number b => exact hNum b
      | True => exact hTrue
      | False => exact hFalse
      | Null => exact hNull
  exact fun v => key (sizeOf v) v (Nat.le_refl _)

/-! ### Bit-arithmetic helpers -/

/-- ORing a value below `2 ^ s` with a value shifted left by `s` is addition:
the bit ranges are disjoint. -/
theorem lor_shiftLeft_eq_add {a b s : Nat} (ha : a < 2 ^ s) :
    a ||| b <<< s = a + b * 2 ^ s := by
  apply Nat.eq_of_testBit_eq
  intro i
  have hr : a + b * 2 ^ s = 2 ^ s * b + a := by ring
  rw [Nat.testBit_lor, Nat.testBit_shiftLeft, hr,
    Nat.testBit_mul_pow_two_add b ha i]
  by_cases h : i < s
  · have hd : decide (i ≥ s) = false := by simp; omega
    simp [h, hd]
  · have hd : decide (i ≥ s) = true := by simp; omega
    have hai : a < 2 ^ i :=
      lt_of_lt_of_le ha (Nat.pow_le_pow_right (by norm_num) (by omega))
    simp [h, hd, Nat.testBit_lt_two_pow hai]

/-- Masking with `0b0111_1111` keeps the low seven bits. -/
theorem and_127_eq_mod (x : Nat) : x &&& 127 = x % 128 := by
  have h := Nat.and_pow_two_sub_one_eq_mod x 7
  norm_num at h
  exact h

/-- A byte of the form `m + 128` with `m < 128` has the continuation bit set. -/
theorem and_128_of_add (m : Nat) (hm : m < 128) : (m + 128) &&& 128 ≠ 0 := by
  have h : (m + 128) &&& 2 ^ 7 = ((m + 128).testBit 7).toNat * 2 ^ 7 :=
    Nat.and_two_pow (m + 128) 7
  have ht : (m + 128).testBit 7 = true := by
    rw [Nat.testBit_to_div_mod]
    have : (m + 128) / 2 ^ 7 = 1 := by omega
    simp [this]
    omega
  rw [ht] at h
  norm_num at h ⊢
  omega

/-- A byte below 128 has the continuation bit clear. -/
theorem and_128_of_lt (m : Nat) (hm : m < 128) : m &&& 128 = 0 := by
  have h : m &&& 2 ^ 7 = (m.testBit 7).toNat * 2 ^ 7 := Nat.and_two_pow m 7
  have ht : m.testBit 7 = false := Nat.testBit_lt_two_pow (by norm_num; omega)
  rw [ht] at h
  norm_num at h
  exact h

/-- The byte `0b1000_0000 | (n as u8)` that `write_length` emits equals
`n % 128 + 128`. -/
theorem write_length_byte (n : Nat) : 128 ||| n % 256 = n % 128 + 128 := by
  have hsplit : n % 256 = n % 128 ∨ n % 256 = n % 128 + 128 := by omega
  have hm : n % 128 < 128 := Nat.mod_lt _ (by norm_num)
  have hbase : n % 128 + 128 = n % 128 ||| 128 := by
    have := lor_shiftLeft_eq_add (a := n % 128) (b := 1) (s := 7) (by norm_num; omega)
    simpa [Nat.shiftLeft_eq] using this.symm
  rcases hsplit with h | h
  · rw [h, Nat.lor_comm, ← hbase]
  · rw [h, hbase, Nat.lor_comm, Nat.lor_assoc, Nat.or_self, ← hbase]

/-! ### `write_length` unfolding -/

/-- The fuel in `write_length_aux` is irrelevant once it exceeds the value. -/
theorem write_length_aux_irrel :
    ∀ n f g, n < f → n < g → write_length_aux f n = write_length_aux g n := by
  intro n
  induction n using Nat.strong_induction_on with
  | _ n ih =>
    intro f g hf hg
    match f, g with
    | f + 1, g + 1 =>
      simp only [write_length_aux]
      by_cases h : 128 ≤ n
      · have hlt : n >>> 7 < n := by
          rw [Nat.shiftRight_eq_div_pow]
          exact Nat.div_lt_self (by omega) (by norm_num)
        rw [if_pos h, if_pos h, ih (n >>> 7) hlt f g (by omega) (by omega)]
      · rw [if_neg h, if_neg h]

/-- One-step unfolding of `write_length`, matching the Rust loop. -/
theorem write_length_unfold (n : Nat) :
    write_length n =
      if 128 ≤ n then (128 ||| n % 256) :: write_length (n >>> 7)
      else [n % 256] := by
  show write_length_aux (n + 1) n = _
  simp only [write_length_aux]
  by_cases h : 128 ≤ n
  · have hlt : n >>> 7 < n := by
      rw [Nat.shiftRight_eq_div_pow]
      exact Nat.div_lt_self (by omega) (by norm_num)
    rw [if_pos h, if_pos h]
    rw [write_length_aux_irrel (n >>> 7) n (n >>> 7 + 1) (by omega) (by omega)]
    rfl
  · rw [if_neg h, if_neg h]

/-- Lower bound: `write_length` always emits at least one byte. -/
theorem write_length_len_pos (n : Nat) : 1 ≤ (write_length n).length := by
  rw [write_length_unfold]
  by_cases h : 128 ≤ n <;> simp [h]

/-! ### `read_length` lemmas -/

/-- A successful `read_length_aux` consumes at least one byte. -/
theorem read_length_aux_consume :
    ∀ l acc s n r, read_length_aux acc s l = .ok (n, r) → r.length < l.length := by
  intro l
  induction l with
  | nil => intro acc s n r h; simp [read_length_aux] at h
  | cons b rest ih =>
    intro acc s n r h
    simp only [read_length_aux] at h
    by_cases h64 : 64 ≤ s
    · rw [if_pos h64] at h; exact Except.noConfusion h
    · rw [if_neg h64] at h
      by_cases hcont : b &&& 128 = 0
      · rw [if_pos hcont] at h
        simp only [Except.ok.injEq, Prod.mk.injEq] at h
        obtain ⟨-, h2⟩ := h
        subst h2
        simp
      · rw [if_neg hcont] at h
        have := ih _ _ _ _ h
        simp
        omega

/-- A successful `read_length_aux` is unchanged when the source is extended. -/
theorem read_length_aux_extend :
    ∀ l t acc s n r, read_length_aux acc s l = .ok (n, r) →
      read_length_aux acc s (l ++ t) = .ok (n, r ++ t) := by
  intro l t
  induction l with
  | nil => intro acc s n r h; simp [read_length_aux] at h
  | cons b rest ih =>
    intro acc s n r h
    simp only [read_length_aux] at h
    simp only [List.cons_append, read_length_aux]
    by_cases h64 : 64 ≤ s
    · rw [if_pos h64] at h; exact Except.noConfusion h
    · rw [if_neg h64] at h ⊢
      by_cases hcont : b &&& 128 = 0
      · rw [if_pos hcont] at h ⊢
        simp only [Except.ok.injEq, Prod.mk.injEq] at h
        obtain ⟨h1, h2⟩ := h
        subst h1
        subst h2
        rfl
      · rw [if_neg hcont] at h ⊢
        exact ih _ _ _ _ h

/-- A shift-overflow result of `read_length_aux` is unchanged when the source
is extended. -/
theorem read_length_aux_overflow_extend :
    ∀ l t acc s, read_length_aux acc s l = .error .panicShiftOverflow →
      read_length_aux acc s (l ++ t) = .error .panicShiftOverflow := by
  intro l t
  induction l with
  | nil =>
    intro acc s h
    simp [read_length_aux] at h
  | cons b rest ih =>
    intro acc s h
    simp only [read_length_aux] at h
    simp only [List.cons_append, read_length_aux]
    by_cases h64 : 64 ≤ s
    · rw [if_pos h64]
    · rw [if_neg h64] at h ⊢
      by_cases hcont : b &&& 128 = 0
      · rw [if_pos hcont] at h; exact absurd h (by simp)
      · rw [if_neg hcont] at h ⊢
        exact ih _ _ h

/-- Trichotomy: `read_length_aux` ends in success, end-of-input, or shift overflow. -/
theorem read_length_aux_cases :
    ∀ l acc s, (∃ n r, read_length_aux acc s l = .ok (n, r)) ∨
      read_length_aux acc s l = .error .eof ∨
      read_length_aux acc s l = .error .panicShiftOverflow := by
  intro l
  induction l with
  | nil => intro acc s; right; left; rfl
  | cons b rest ih =>
    intro acc s
    simp only [read_length_aux]
    by_cases h64 : 64 ≤ s
    · rw [if_pos h64]; right; right; rfl
    · rw [if_neg h64]
      by_cases hcont : b &&& 128 = 0
      · rw [if_pos hcont]; left; exact ⟨_, _, rfl⟩
      · rw [if_neg hcont]; exact ih _ _

/-- Round-trip of the varint loop, generalized over the accumulator and
shift. -/
theorem read_length_aux_write :
    ∀ n acc s rest, s ≤ 63 → n < 2 ^ (64 - s) → acc < 2 ^ s →
      read_length_aux acc s (write_length n ++ rest) =
        .ok (acc + n * 2 ^ s, rest) := by
  intro n
  induction n using Nat.strong_induction_on with
  | _ n ih =>
    intro acc s rest hs hn hacc
    have h2pos : (0 : Nat) < 2 := by norm_num
    have h27 : (2 : Nat) ^ 7 = 128 := by norm_num
    rw [write_length_unfold]
    by_cases h : 128 ≤ n
    · -- continuation byte, then recurse on n >>> 7
      have hs56 : s ≤ 56 := by
        by_contra hgt
        have h8 : 64 - s ≤ 7 := by omega
        have : (2 : Nat) ^ (64 - s) ≤ 2 ^ 7 :=
          Nat.pow_le_pow_right (by norm_num) h8
        omega
      rw [if_pos h]
      simp only [List.cons_append, read_length_aux]
      rw [if_neg (by omega : ¬ 64 ≤ s)]
      rw [write_length_byte]
      have hb127 : (n % 128 + 128) &&& 127 = n % 128 := by
        rw [and_127_eq_mod]; omega
      have hb128 : (n % 128 + 128) &&& 128 ≠ 0 :=
        and_128_of_add _ (Nat.mod_lt _ (by norm_num))
      rw [if_neg hb128, hb127]
      have hm128 : n % 128 < 128 := Nat.mod_lt _ (by norm_num)
      have hsmall : (n % 128) <<< s < 2 ^ 64 := by
        rw [Nat.shiftLeft_eq]
        calc n % 128 * 2 ^ s < 128 * 2 ^ s :=
              (Nat.mul_lt_mul_right (Nat.pos_pow_of_pos s h2pos)).mpr hm128
          _ = 2 ^ (s + 7) := by rw [Nat.pow_add, h27]; ring
          _ ≤ 2 ^ 64 := Nat.pow_le_pow_right (by norm_num) (by omega)
      rw [Nat.mod_eq_of_lt hsmall, lor_shiftLeft_eq_add hacc]
      have hlt : n >>> 7 < n := by
        rw [Nat.shiftRight_eq_div_pow]
        exact Nat.div_lt_self (by omega) (by norm_num)
      have hrec := ih (n >>> 7) hlt (acc + n % 128 * 2 ^ s) (s + 7) rest
        (by omega)
        (by
          rw [Nat.shiftRight_eq_div_pow, h27,
            Nat.div_lt_iff_lt_mul (by norm_num)]
          have heq : (2 : Nat) ^ (64 - (s + 7)) * 128 = 2 ^ (64 - s) := by
            rw [(by norm_num : (128 : Nat) = 2 ^ 7), ← Nat.pow_add]
            congr 1
            omega
          omega)
        (by
          have h1 : n % 128 * 2 ^ s ≤ 127 * 2 ^ s :=
            Nat.mul_le_mul_right _ (by omega)
          have h2 : 2 ^ s + 127 * 2 ^ s = 2 ^ (s + 7) := by
            rw [Nat.pow_add, h27]; ring
          omega)
      have hsplit : n % 128 + 128 * (n >>> 7) = n := by
        rw [Nat.shiftRight_eq_div_pow, h27]
        omega
      have hfin : acc + n % 128 * 2 ^ s + n >>> 7 * 2 ^ (s + 7)
          = acc + n * 2 ^ s := by
        calc acc + n % 128 * 2 ^ s + n >>> 7 * 2 ^ (s + 7)
            = acc + (n % 128 + 128 * (n >>> 7)) * 2 ^ s := by
              rw [Nat.pow_add, h27]; ring
          _ = acc + n * 2 ^ s := by rw [hsplit]
      rw [List.append_eq, hrec, hfin]
    · -- final byte
      rw [if_neg h]
      have hn256 : n % 256 = n := Nat.mod_eq_of_lt (by omega)
      simp only [List.cons_append, read_length_aux]
      rw [if_neg (by omega : ¬ 64 ≤ s), hn256]
      have hb127 : n &&& 127 = n := by rw [and_127_eq_mod]; omega
      have hb128 : n &&& 128 = 0 := and_128_of_lt _ (by omega)
      rw [if_pos hb128, hb127]
      have hsmall : n <<< s < 2 ^ 64 := by
        rw [Nat.shiftLeft_eq]
        calc n * 2 ^ s < 2 ^ (64 - s) * 2 ^ s :=
              (Nat.mul_lt_mul_right (Nat.pos_pow_of_pos s h2pos)).mpr hn
          _ = 2 ^ 64 := by rw [← Nat.pow_add]; congr 1; omega
      rw [Nat.mod_eq_of_lt hsmall, lor_shiftLeft_eq_add hacc]
      simp

/-- Varint round-trip: `read_length` inverts `write_length` for every `u64`,
leaving trailing bytes untouched. -/
theorem read_length_write_length (n : Nat) (hn : n < 2 ^ 64) (rest : List Nat) :
    read_length (write_length n ++ rest) = .ok (n, rest) := by
  have h := read_length_aux_write n 0 0 rest (by omega) (by simpa using hn)
    (by norm_num)
  simpa using h

/-- Characterization of the shift-overflow outcome of the varint loop: with
the shift already at `7 * k`, the shift amount reaches 64 exactly when the
next `10 - k` bytes all have the continuation bit set and an eleventh-uple
byte exists to be read. -/
theorem read_length_aux_overflow_iff :
    ∀ l k acc, k ≤ 10 →
      (read_length_aux acc (7 * k) l = .error .panicShiftOverflow ↔
        10 - k < l.length ∧ ∀ b ∈ l.take (10 - k), b &&& 128 ≠ 0) := by
  intro l
  induction l with
  | nil =>
    intro k acc hk
    simp [read_length_aux]
  | cons b rest ih =>
    intro k acc hk
    by_cases hk10 : k = 10
    · subst hk10
      simp [read_length_aux]
    · have hk9 : k ≤ 9 := by omega
      simp only [read_length_aux]
      rw [if_neg (by omega : ¬ 64 ≤ 7 * k)]
      by_cases hcont : b &&& 128 = 0
      · rw [if_pos hcont]
        constructor
        · intro h; simp at h
        · rintro ⟨-, hall⟩
          have hb : b ∈ (b :: rest).take (10 - k) := by
            have : 1 ≤ 10 - k := by omega
            match h10 : 10 - k with
            | 0 => omega
            | m + 1 => simp
          exact absurd hcont (hall b hb)
      · rw [if_neg hcont]
        have h7 : 7 * k + 7 = 7 * (k + 1) := by ring
        rw [h7, ih (k + 1) _ (by omega)]
        have h10 : 10 - k = (10 - (k + 1)) + 1 := by omega
        rw [h10]
        simp only [List.take_succ_cons, List.length_cons, List.mem_cons]
        constructor
        · rintro ⟨h1, h2⟩
          refine ⟨by omega, ?_⟩
          rintro x (rfl | hx)
          · exact hcont
          · exact h2 x hx
        · rintro ⟨h1, h2⟩
          exact ⟨by omega, fun x hx => h2 x (Or.inr hx)⟩

/-- Top-level characterization: `read_length` hits the left-shift overflow
exactly when the first ten bytes all have the continuation bit set and an
eleventh byte exists. -/
theorem read_length_overflow_iff (l : List Nat) :
    read_length l = .error .panicShiftOverflow ↔
      10 < l.length ∧ ∀ b ∈ l.take 10, b &&& 128 ≠ 0 := by
  have h := read_length_aux_overflow_iff l 0 0 (by norm_num)
  simpa using h

/-! ### Encoder lemmas: the writer only appends, and the byte count returned
is the length of what was appended -/

/-- The array loop appends `serializeL vs` and adds its length to the running
count, provided each element's `serialize_to` does so. -/
theorem serialize_list_eq (vs : List JValue)
    (hp : ∀ v ∈ vs, ∀ w, serialize_to w v = (w ++ serialize v, (serialize v).length)) :
    ∀ w c, serialize_list w c vs = (w ++ serializeL vs, c + (serializeL vs).length) := by
  induction vs with
  | nil => intro w c; simp [serialize_list, serializeL]
  | cons v vs ih =>
    intro w c
    have hv := hp v (by simp)
    have ih' := ih (fun x hx => hp x (by simp [hx]))
    have hL : serializeL (v :: vs) = serialize v ++ serializeL vs := by
      show (serialize_list [] 0 (v :: vs)).1 = _
      simp only [serialize_list, hv, ih']
      simp
    rw [hL]
    simp only [serialize_list, hv, ih']
    simp
    omega

/-- The object loop appends `serializeP ps` and adds its length to the running
count, provided each value's `serialize_to` does so. -/
theorem serialize_pairs_eq (ps : List (List Nat × JValue))
    (hp : ∀ kv ∈ ps, ∀ w, serialize_to w kv.2 = (w ++ serialize kv.2, (serialize kv.2).length)) :
    ∀ w c, serialize_pairs w c ps = (w ++ serializeP ps, c + (serializeP ps).length) := by
  induction ps with
  | nil => intro w c; simp [serialize_pairs, serializeP]
  | cons kv ps ih =>
    obtain ⟨k, v⟩ := kv
    intro w c
    have hv := hp (k, v) (by simp)
    have ih' := ih (fun x hx => hp x (by simp [hx]))
    have hP : serializeP ((k, v) :: ps) =
        write_length k.length ++ k ++ serialize v ++ serializeP ps := by
      show (serialize_pairs [] 0 ((k, v) :: ps)).1 = _
      simp only [serialize_pairs, write_str, hv, ih']
      simp
    rw [hP]
    simp only [serialize_pairs, write_str, hv, ih']
    simp
    omega

/-- Theorem: `serialize_to` appends the encoding of `v` to the writer and returns its
length as the byte count. -/
theorem serialize_to_eq :
    ∀ v w, serialize_to w v = (w ++ serialize v, (serialize v).length) := by
  intro v
  induction v using JValue.inductionOn with
  | hNull => intro w; simp [serialize_to, serialize]
  | hTrue => intro w; simp [serialize_to, serialize]
  | hFalse => intro w; simp [serialize_to, serialize]
  | hNum n =>
    intro w
    have hs : serialize (.Number n) = NUMBER_MARKER :: beBytes8 n := by
      simp [serialize, serialize_to]
    simp [serialize_to, hs, beBytes8]
  | hStr s =>
    intro w
    have hs : serialize (.String s) =
        STRING_MARKER :: write_length s.length ++ s := by
      simp [serialize, serialize_to, write_str]
    simp [serialize_to, write_str, hs]
    omega
  | hArr vs ih =>
    intro w
    have hs : serialize (.Array vs) =
        ARRAY_MARKER :: write_length vs.length ++ serializeL vs := by
      show (serialize_to [] (.Array vs)).1 = _
      simp only [serialize_to, serialize_list_eq vs ih]
      simp
    simp only [serialize_to, serialize_list_eq vs ih, hs]
    simp
    omega
  | hObj ps ih =>
    intro w
    have hs : serialize (.Object ps) =
        OBJECT_MARKER :: write_length ps.length ++ serializeP ps := by
      show (serialize_to [] (.Object ps)).1 = _
      simp only [serialize_to, serialize_pairs_eq ps ih]
      simp
    simp only [serialize_to, serialize_pairs_eq ps ih, hs]
    simp
    omega

/-- Unfolding equations for `serialize` on each constructor. -/
theorem serialize_null : serialize .Null = [NULL_MARKER] := rfl

theorem serialize_true : serialize .True = [TRUE_MARKER] := rfl

theorem serialize_false : serialize .False = [FALSE_MARKER] := rfl

theorem serialize_number (n : Nat) :
    serialize (.Number n) = NUMBER_MARKER :: beBytes8 n := by
  simp [serialize, serialize_to]

theorem serialize_string (s : List Nat) :
    serialize (.String s) = STRING_MARKER :: write_length s.length ++ s := by
  simp [serialize, serialize_to, write_str]

theorem serialize_array (vs : List JValue) :
    serialize (.Array vs) =
      ARRAY_MARKER :: write_length vs.length ++ serializeL vs := by
  show (serialize_to [] (.Array vs)).1 = _
  simp only [serialize_to,
    serialize_list_eq vs (fun x _ w => serialize_to_eq x w)]
  simp

theorem serialize_object (ps : List (List Nat × JValue)) :
    serialize (.Object ps) =
      OBJECT_MARKER :: write_length ps.length ++ serializeP ps := by
  show (serialize_to [] (.Object ps)).1 = _
  simp only [serialize_to,
    serialize_pairs_eq ps (fun x _ w => serialize_to_eq x.2 w)]
  simp

theorem serializeL_nil : serializeL [] = [] := rfl

theorem serializeL_cons (v : JValue) (vs : List JValue) :
    serializeL (v :: vs) = serialize v ++ serializeL vs := by
  show (serialize_list [] 0 (v :: vs)).1 = _
  simp only [serialize_list, serialize_to_eq v,
    serialize_list_eq vs (fun x _ w => serialize_to_eq x w)]
  simp

theorem serializeP_nil : serializeP [] = [] := rfl

theorem serializeP_cons (k : List Nat) (v : JValue) (ps : List (List Nat × JValue)) :
    serializeP ((k, v) :: ps) =
      write_length k.length ++ k ++ serialize v ++ serializeP ps := by
  show (serialize_pairs [] 0 ((k, v) :: ps)).1 = _
  simp only [serialize_pairs, write_str, serialize_to_eq v,
    serialize_pairs_eq ps (fun x _ w => serialize_to_eq x.2 w)]
  simp

/-- Every encoding starts with a marker byte, so is nonempty. -/
theorem serialize_len_pos (v : JValue) : 1 ≤ (serialize v).length := by
  cases v with
  | Object ps => rw [serialize_object]; simp
  | Array vs => rw [serialize_array]; simp
  | String s => rw [serialize_string]; simp
  | Number n => rw [serialize_number]; simp
  | True => rw [serialize_true]; simp
  | False => rw [serialize_false]; simp
  | Null => rw [serialize_null]; simp

/-! ### Decoder lemmas, by induction on the fuel -/

/-- A successful decode consumes at least one byte (`read_from`), and the
loops never lengthen the remaining input. -/
theorem read_consume_all : ∀ f,
    (∀ l v r, read_from f l = .ok (v, r) → r.length < l.length) ∧
    (∀ n l vs r, read_many f n l = .ok (vs, r) → r.length ≤ l.length) ∧
    (∀ n l ps r, read_pairs f n l = .ok (ps, r) → r.length ≤ l.length) := by
  intro f
  induction f with
  | zero =>
    refine ⟨?_, ?_, ?_⟩
    · intro l v r h; simp [read_from] at h
    · intro n l vs r h
      cases n with
      | zero =>
        simp only [read_many, Except.ok.injEq, Prod.mk.injEq] at h
        obtain ⟨-, h2⟩ := h; subst h2; exact Nat.le_refl _
      | succ n => simp [read_many] at h
    · intro n l ps r h
      cases n with
      | zero =>
        simp only [read_pairs, Except.ok.injEq, Prod.mk.injEq] at h
        obtain ⟨-, h2⟩ := h; subst h2; exact Nat.le_refl _
      | succ n => simp [read_pairs] at h
  | succ f ih =>
    obtain ⟨ih1, ih2, ih3⟩ := ih
    refine ⟨?_, ?_, ?_⟩
    · intro l v r h
      cases l with
      | nil => simp [read_from] at h
      | cons t rest =>
        simp only [read_from] at h
        by_cases h0 : t = NULL_MARKER
        · rw [if_pos h0] at h
          simp only [Except.ok.injEq, Prod.mk.injEq] at h
          obtain ⟨-, h2⟩ := h; subst h2; simp
        · rw [if_neg h0] at h
          by_cases h1 : t = TRUE_MARKER
          · rw [if_pos h1] at h
            simp only [Except.ok.injEq, Prod.mk.injEq] at h
            obtain ⟨-, h2⟩ := h; subst h2; simp
          · rw [if_neg h1] at h
            by_cases h2 : t = FALSE_MARKER
            · rw [if_pos h2] at h
              simp only [Except.ok.injEq, Prod.mk.injEq] at h
              obtain ⟨-, h2'⟩ := h; subst h2'; simp
            · rw [if_neg h2] at h
              by_cases h3 : t = NUMBER_MARKER
              · rw [if_pos h3] at h
                by_cases h8 : rest.length < 8
                · rw [if_pos h8] at h; exact absurd h (by simp)
                · rw [if_neg h8] at h
                  simp only [Except.ok.injEq, Prod.mk.injEq] at h
                  obtain ⟨-, h2'⟩ := h; subst h2'
                  simp only [List.length_drop, List.length_cons]
                  omega
              · rw [if_neg h3] at h
                by_cases h4 : t = STRING_MARKER
                · rw [if_pos h4] at h
                  split at h
                  next e heq => exact absurd h (by simp)
                  next len r1 heq =>
                    have hc := read_length_aux_consume rest 0 0 len r1 heq
                    by_cases hlen : r1.length < len
                    · rw [if_pos hlen] at h; exact absurd h (by simp)
                    · rw [if_neg hlen] at h
                      by_cases hutf : validUtf8 (List.take len r1) = true
                      · rw [if_pos hutf] at h
                        simp only [Except.ok.injEq, Prod.mk.injEq] at h
                        obtain ⟨-, h2'⟩ := h; subst h2'
                        simp only [List.length_drop, List.length_cons]
                        omega
                      · rw [if_neg hutf] at h; exact absurd h (by simp)
                · rw [if_neg h4] at h
                  by_cases h5 : t = ARRAY_MARKER
                  · rw [if_pos h5] at h
                    split at h
                    next e heq => exact absurd h (by simp)
                    next len r1 heq =>
                      have hc := read_length_aux_consume rest 0 0 len r1 heq
                      split at h
                      next e2 heq2 => exact absurd h (by simp)
                      next vs r2 heq2 =>
                        have hc2 := ih2 len r1 vs r2 heq2
                        simp only [Except.ok.injEq, Prod.mk.injEq] at h
                        obtain ⟨-, h2'⟩ := h; subst h2'
                        simp only [List.length_cons]
                        omega
                  · rw [if_neg h5] at h
                    by_cases h6 : t = OBJECT_MARKER
                    · rw [if_pos h6] at h
                      split at h
                      next e heq => exact absurd h (by simp)
                      next len r1 heq =>
                        have hc := read_length_aux_consume rest 0 0 len r1 heq
                        split at h
                        next e2 heq2 => exact absurd h (by simp)
                        next ps2 r2 heq2 =>
                          have hc2 := ih3 len r1 ps2 r2 heq2
                          simp only [Except.ok.injEq, Prod.mk.injEq] at h
                          obtain ⟨-, h2'⟩ := h; subst h2'
                          simp only [List.length_cons]
                          omega
                    · rw [if_neg h6] at h; exact absurd h (by simp)
    · intro n l vs r h
      cases n with
      | zero =>
        simp only [read_many, Except.ok.injEq, Prod.mk.injEq] at h
        obtain ⟨-, h2⟩ := h; subst h2; exact Nat.le_refl _
      | succ n =>
        simp only [read_many] at h
        split at h
        next e heq => exact absurd h (by simp)
        next v1 r1 heq =>
          have hc1 := ih1 l v1 r1 heq
          split at h
          next e2 heq2 => exact absurd h (by simp)
          next vs2 r2 heq2 =>
            have hc2 := ih2 n r1 vs2 r2 heq2
            simp only [Except.ok.injEq, Prod.mk.injEq] at h
            obtain ⟨-, h2'⟩ := h; subst h2'
            omega
    · intro n l ps r h
      cases n with
      | zero =>
        simp only [read_pairs, Except.ok.injEq, Prod.mk.injEq] at h
        obtain ⟨-, h2⟩ := h; subst h2; exact Nat.le_refl _
      | succ n =>
        simp only [read_pairs] at h
        split at h
        next e heq => exact absurd h (by simp)
        next klen r1 heq =>
          have hc := read_length_aux_consume l 0 0 klen r1 heq
          by_cases hlen : r1.length < klen
          · rw [if_pos hlen] at h; exact absurd h (by simp)
          · rw [if_neg hlen] at h
            by_cases hutf : validUtf8 (List.take klen r1) = true
            · rw [if_pos hutf] at h
              split at h
              next e2 heq2 => exact absurd h (by simp)
              next v2 r2 heq2 =>
                have hc2 := ih1 _ v2 r2 heq2
                split at h
                next e3 heq3 => exact absurd h (by simp)
                next ps3 r3 heq3 =>
                  have hc3 := ih3 n r2 ps3 r3 heq3
                  simp only [Except.ok.injEq, Prod.mk.injEq] at h
                  obtain ⟨-, h2'⟩ := h; subst h2'
                  simp only [List.length_drop] at hc2
                  omega
            · rw [if_neg hutf] at h; exact absurd h (by simp)

/-- Consumption for `read_from` alone. -/
theorem read_from_consume (f : Nat) (l : List Nat) (v : JValue) (r : List Nat)
    (h : read_from f l = .ok (v, r)) : r.length < l.length :=
  (read_consume_all f).1 l v r h

/-- Any decoder outcome other than fuel exhaustion is preserved when the fuel
is incremented. -/
theorem read_mono_all : ∀ f,
    (∀ l res, read_from f l = res → res ≠ .error .outOfFuel →
      read_from (f + 1) l = res) ∧
    (∀ n l res, read_many f n l = res → res ≠ .error .outOfFuel →
      read_many (f + 1) n l = res) ∧
    (∀ n l res, read_pairs f n l = res → res ≠ .error .outOfFuel →
      read_pairs (f + 1) n l = res) := by
  intro f
  induction f with
  | zero =>
    refine ⟨?_, ?_, ?_⟩
    · intro l res h hne
      rw [show read_from 0 l = .error .outOfFuel from rfl] at h
      exact absurd h.symm hne
    · intro n l res h hne
      cases n with
      | zero =>
        rw [show read_many 0 0 l = .ok ([], l) from rfl] at h
        rw [← h]
        rfl
      | succ n =>
        rw [show read_many 0 (n + 1) l = .error .outOfFuel from rfl] at h
        exact absurd h.symm hne
    · intro n l res h hne
      cases n with
      | zero =>
        rw [show read_pairs 0 0 l = .ok ([], l) from rfl] at h
        rw [← h]
        rfl
      | succ n =>
        rw [show read_pairs 0 (n + 1) l = .error .outOfFuel from rfl] at h
        exact absurd h.symm hne
  | succ f ih =>
    obtain ⟨ih1, ih2, ih3⟩ := ih
    refine ⟨?_, ?_, ?_⟩
    · intro l res h hne
      cases l with
      | nil => simp only [read_from] at h ⊢; exact h
      | cons t rest =>
        simp only [read_from] at h ⊢
        by_cases h0 : t = NULL_MARKER
        · rw [if_pos h0] at h ⊢; exact h
        · rw [if_neg h0] at h ⊢
          by_cases h1 : t = TRUE_MARKER
          · rw [if_pos h1] at h ⊢; exact h
          · rw [if_neg h1] at h ⊢
            by_cases h2 : t = FALSE_MARKER
            · rw [if_pos h2] at h ⊢; exact h
            · rw [if_neg h2] at h ⊢
              by_cases h3 : t = NUMBER_MARKER
              · rw [if_pos h3] at h ⊢; exact h
              · rw [if_neg h3] at h ⊢
                by_cases h4 : t = STRING_MARKER
                · rw [if_pos h4] at h ⊢; exact h
                · rw [if_neg h4] at h ⊢
                  by_cases h5 : t = ARRAY_MARKER
                  · rw [if_pos h5] at h ⊢
                    split at h
                    next e heq => exact h
                    next len r1 heq =>
                      split at h
                      next e2 heq2 =>
                        have he2 : (Except.error e2 :
                            Except DErr (List JValue × List Nat)) ≠
                            .error .outOfFuel := by
                          intro hx
                          injection hx with hx2
                          exact hne (by rw [← h, hx2])
                        have hlift := ih2 len r1 _ heq2 he2
                        simp only [hlift]; exact h
                      next vs2 r2 heq2 =>
                        have hlift := ih2 len r1 _ heq2 (by simp)
                        simp only [hlift]; exact h
                  · rw [if_neg h5] at h ⊢
                    by_cases h6 : t = OBJECT_MARKER
                    · rw [if_pos h6] at h ⊢
                      split at h
                      next e heq => exact h
                      next len r1 heq =>
                        split at h
                        next e2 heq2 =>
                          have he2 : (Except.error e2 :
                              Except DErr (List (List Nat × JValue) × List Nat)) ≠
                              .error .outOfFuel := by
                            intro hx
                            injection hx with hx2
                            exact hne (by rw [← h, hx2])
                          have hlift := ih3 len r1 _ heq2 he2
                          simp only [hlift]; exact h
                        next ps2 r2 heq2 =>
                          have hlift := ih3 len r1 _ heq2 (by simp)
                          simp only [hlift]; exact h
                    · rw [if_neg h6] at h ⊢; exact h
    · intro n l res h hne
      cases n with
      | zero => simp only [read_many] at h ⊢; exact h
      | succ n =>
        simp only [read_many] at h ⊢
        split at h
        next e heq =>
          have he : (Except.error e : Except DErr (JValue × List Nat)) ≠
              .error .outOfFuel := by
            intro hx
            injection hx with hx2
            exact hne (by rw [← h, hx2])
          have hlift := ih1 l _ heq he
          simp only [hlift]; exact h
        next v1 r1 heq =>
          have hlift := ih1 l _ heq (by simp)
          split at h
          next e2 heq2 =>
            have he2 : (Except.error e2 :
                Except DErr (List JValue × List Nat)) ≠ .error .outOfFuel := by
              intro hx
              injection hx with hx2
              exact hne (by rw [← h, hx2])
            have hlift2 := ih2 n r1 _ heq2 he2
            simp only [hlift, hlift2]; exact h
          next vs2 r2 heq2 =>
            have hlift2 := ih2 n r1 _ heq2 (by simp)
            simp only [hlift, hlift2]; exact h
    · intro n l res h hne
      cases n with
      | zero => simp only [read_pairs] at h ⊢; exact h
      | succ n =>
        simp only [read_pairs] at h ⊢
        split at h
        next e heq => exact h
        next klen r1 heq =>
          by_cases hlen : r1.length < klen
          · rw [if_pos hlen] at h ⊢; exact h
          · rw [if_neg hlen] at h ⊢
            by_cases hutf : validUtf8 (List.take klen r1) = true
            · rw [if_pos hutf] at h ⊢
              split at h
              next e2 heq2 =>
                have he2 : (Except.error e2 :
                    Except DErr (JValue × List Nat)) ≠ .error .outOfFuel := by
                  intro hx
                  injection hx with hx2
                  exact hne (by rw [← h, hx2])
                have hlift := ih1 _ _ heq2 he2
                simp only [hlift]; exact h
              next v2 r2 heq2 =>
                have hlift := ih1 _ _ heq2 (by simp)
                split at h
                next e3 heq3 =>
                  have he3 : (Except.error e3 :
                      Except DErr (List (List Nat × JValue) × List Nat)) ≠
                      .error .outOfFuel := by
                    intro hx
                    injection hx with hx2
                    exact hne (by rw [← h, hx2])
                  have hlift2 := ih3 n r2 _ heq3 he3
                  simp only [hlift, hlift2]; exact h
                next ps3 r3 heq3 =>
                  have hlift2 := ih3 n r2 _ heq3 (by simp)
                  simp only [hlift, hlift2]; exact h
            · rw [if_neg hutf] at h ⊢; exact h

/-- A successful parse is unchanged when the source is extended: the extra
bytes simply stay in the remainder. -/
theorem read_ext_all : ∀ f,
    (∀ l tl v r, read_from f l = .ok (v, r) →
      read_from f (l ++ tl) = .ok (v, r ++ tl)) ∧
    (∀ n l tl vs r, read_many f n l = .ok (vs, r) →
      read_many f n (l ++ tl) = .ok (vs, r ++ tl)) ∧
    (∀ n l tl ps r, read_pairs f n l = .ok (ps, r) →
      read_pairs f n (l ++ tl) = .ok (ps, r ++ tl)) := by
  intro f
  induction f with
  | zero =>
    refine ⟨?_, ?_, ?_⟩
    · intro l tl v r h; simp [read_from] at h
    · intro n l tl vs r h
      cases n with
      | zero =>
        simp only [read_many, Except.ok.injEq, Prod.mk.injEq] at h
        obtain ⟨h1, h2⟩ := h
        subst h1; subst h2
        rfl
      | succ n => simp [read_many] at h
    · intro n l tl ps r h
      cases n with
      | zero =>
        simp only [read_pairs, Except.ok.injEq, Prod.mk.injEq] at h
        obtain ⟨h1, h2⟩ := h
        subst h1; subst h2
        rfl
      | succ n => simp [read_pairs] at h
  | succ f ih =>
    obtain ⟨ih1, ih2, ih3⟩ := ih
    refine ⟨?_, ?_, ?_⟩
    · intro l tl v r h
      cases l with
      | nil => simp [read_from] at h
      | cons t rest =>
        simp only [List.cons_append]
        simp only [read_from] at h ⊢
        by_cases h0 : t = NULL_MARKER
        · rw [if_pos h0] at h ⊢
          simp only [Except.ok.injEq, Prod.mk.injEq] at h ⊢
          obtain ⟨h1, h2⟩ := h
          exact ⟨h1, by rw [← h2]⟩
        · rw [if_neg h0] at h ⊢
          by_cases h1 : t = TRUE_MARKER
          · rw [if_pos h1] at h ⊢
            simp only [Except.ok.injEq, Prod.mk.injEq] at h ⊢
            obtain ⟨ha, hb⟩ := h
            exact ⟨ha, by rw [← hb]⟩
          · rw [if_neg h1] at h ⊢
            by_cases h2 : t = FALSE_MARKER
            · rw [if_pos h2] at h ⊢
              simp only [Except.ok.injEq, Prod.mk.injEq] at h ⊢
              obtain ⟨ha, hb⟩ := h
              exact ⟨ha, by rw [← hb]⟩
            · rw [if_neg h2] at h ⊢
              by_cases h3 : t = NUMBER_MARKER
              · rw [if_pos h3] at h ⊢
                by_cases h8 : rest.length < 8
                · rw [if_pos h8] at h; exact absurd h (by simp)
                · rw [if_neg h8] at h
                  rw [if_neg (by simp; omega)]
                  rw [List.take_append_of_le_length (by omega),
                    List.drop_append_of_le_length (by omega)]
                  simp only [Except.ok.injEq, Prod.mk.injEq] at h ⊢
                  obtain ⟨ha, hb⟩ := h
                  exact ⟨ha, by rw [← hb]⟩
              · rw [if_neg h3] at h ⊢
                by_cases h4 : t = STRING_MARKER
                · rw [if_pos h4] at h ⊢
                  split at h
                  next e heq => exact absurd h (by simp)
                  next len r1 heq =>
                    have hext : read_length (rest ++ tl) = .ok (len, r1 ++ tl) :=
                      read_length_aux_extend rest tl 0 0 len r1 heq
                    simp only [hext]
                    by_cases hlen : r1.length < len
                    · rw [if_pos hlen] at h; exact absurd h (by simp)
                    · rw [if_neg hlen] at h
                      rw [if_neg (by simp; omega)]
                      rw [List.take_append_of_le_length (by omega),
                        List.drop_append_of_le_length (by omega)]
                      by_cases hutf : validUtf8 (List.take len r1) = true
                      · rw [if_pos hutf] at h ⊢
                        simp only [Except.ok.injEq, Prod.mk.injEq] at h ⊢
                        obtain ⟨ha, hb⟩ := h
                        exact ⟨ha, by rw [← hb]⟩
                      · rw [if_neg hutf] at h; exact absurd h (by simp)
                · rw [if_neg h4] at h ⊢
                  by_cases h5 : t = ARRAY_MARKER
                  · rw [if_pos h5] at h ⊢
                    split at h
                    next e heq => exact absurd h (by simp)
                    next len r1 heq =>
                      have hext : read_length (rest ++ tl) = .ok (len, r1 ++ tl) :=
                        read_length_aux_extend rest tl 0 0 len r1 heq
                      simp only [hext]
                      split at h
                      next e2 heq2 => exact absurd h (by simp)
                      next vs2 r2 heq2 =>
                        have hext2 := ih2 len r1 tl vs2 r2 heq2
                        simp only [hext2]
                        simp only [Except.ok.injEq, Prod.mk.injEq] at h ⊢
                        obtain ⟨ha, hb⟩ := h
                        exact ⟨ha, by rw [← hb]⟩
                  · rw [if_neg h5] at h ⊢
                    by_cases h6 : t = OBJECT_MARKER
                    · rw [if_pos h6] at h ⊢
                      split at h
                      next e heq => exact absurd h (by simp)
                      next len r1 heq =>
                        have hext : read_length (rest ++ tl) = .ok (len, r1 ++ tl) :=
                          read_length_aux_extend rest tl 0 0 len r1 heq
                        simp only [hext]
                        split at h
                        next e2 heq2 => exact absurd h (by simp)
                        next ps2 r2 heq2 =>
                          have hext2 := ih3 len r1 tl ps2 r2 heq2
                          simp only [hext2]
                          simp only [Except.ok.injEq, Prod.mk.injEq] at h ⊢
                          obtain ⟨ha, hb⟩ := h
                          exact ⟨ha, by rw [← hb]⟩
                    · rw [if_neg h6] at h; exact absurd h (by simp)
    · intro n l tl vs r h
      cases n with
      | zero =>
        simp only [read_many, Except.ok.injEq, Prod.mk.injEq] at h ⊢
        obtain ⟨h1, h2⟩ := h
        exact ⟨h1, by rw [← h2]⟩
      | succ n =>
        simp only [read_many] at h ⊢
        split at h
        next e heq => exact absurd h (by simp)
        next v1 r1 heq =>
          have hext := ih1 l tl v1 r1 heq
          simp only [hext]
          split at h
          next e2 heq2 => exact absurd h (by simp)
          next vs2 r2 heq2 =>
            have hext2 := ih2 n r1 tl vs2 r2 heq2
            simp only [hext2]
            simp only [Except.ok.injEq, Prod.mk.injEq] at h ⊢
            obtain ⟨ha, hb⟩ := h
            exact ⟨ha, by rw [← hb]⟩
    · intro n l tl ps r h
      cases n with
      | zero =>
        simp only [read_pairs, Except.ok.injEq, Prod.mk.injEq] at h ⊢
        obtain ⟨h1, h2⟩ := h
        exact ⟨h1, by rw [← h2]⟩
      | succ n =>
        simp only [read_pairs] at h ⊢
        split at h
        next e heq => exact absurd h (by simp)
        next klen r1 heq =>
          have hext : read_length (l ++ tl) = .ok (klen, r1 ++ tl) :=
            read_length_aux_extend l tl 0 0 klen r1 heq
          simp only [hext]
          by_cases hlen : r1.length < klen
          · rw [if_pos hlen] at h; exact absurd h (by simp)
          · rw [if_neg hlen] at h
            rw [if_neg (by simp; omega)]
            rw [List.take_append_of_le_length (by omega),
              List.drop_append_of_le_length (by omega)]
            by_cases hutf : validUtf8 (List.take klen r1) = true
            · rw [if_pos hutf] at h ⊢
              split at h
              next e2 heq2 => exact absurd h (by simp)
              next v2 r2 heq2 =>
                have hext2 := ih1 _ tl v2 r2 heq2
                simp only [hext2]
                split at h
                next e3 heq3 => exact absurd h (by simp)
                next ps3 r3 heq3 =>
                  have hext3 := ih3 n r2 tl ps3 r3 heq3
                  simp only [hext3]
                  simp only [Except.ok.injEq, Prod.mk.injEq] at h ⊢
                  obtain ⟨ha, hb⟩ := h
                  exact ⟨ha, by rw [← hb]⟩
            · rw [if_neg hutf] at h; exact absurd h (by simp)

/-- Trichotomy for `read_length`: it never produces the decoder panics for markers or UTF-8,
nor the fuel artefact: only success, end-of-input, or shift overflow. -/
theorem read_length_cases (l : List Nat) :
    (∃ n r, read_length l = .ok (n, r)) ∨ read_length l = .error .eof ∨
      read_length l = .error .panicShiftOverflow :=
  read_length_aux_cases l 0 0

/-- A non-`eof` error of the decoder (one of the modelled panics) is stable
under extending the source: the bytes that triggered it are unchanged. -/
theorem read_err_all : ∀ f,
    (∀ l tl e, read_from f l = .error e → e ≠ .eof →
      read_from f (l ++ tl) = .error e) ∧
    (∀ n l tl e, read_many f n l = .error e → e ≠ .eof →
      read_many f n (l ++ tl) = .error e) ∧
    (∀ n l tl e, read_pairs f n l = .error e → e ≠ .eof →
      read_pairs f n (l ++ tl) = .error e) := by
  intro f
  induction f with
  | zero =>
    refine ⟨?_, ?_, ?_⟩
    · intro l tl e h hne
      rw [show read_from 0 l = .error .outOfFuel from rfl] at h
      injection h with h2
      rw [← h2]
      rfl
    · intro n l tl e h hne
      cases n with
      | zero => simp [read_many] at h
      | succ n =>
        rw [show read_many 0 (n + 1) l = .error .outOfFuel from rfl] at h
        injection h with h2
        rw [← h2]
        rfl
    · intro n l tl e h hne
      cases n with
      | zero => simp [read_pairs] at h
      | succ n =>
        rw [show read_pairs 0 (n + 1) l = .error .outOfFuel from rfl] at h
        injection h with h2
        rw [← h2]
        rfl
  | succ f ih =>
    obtain ⟨ih1, ih2, ih3⟩ := ih
    have ext1 := (read_ext_all (f + 1)).1
    have exta := (read_ext_all f).1
    refine ⟨?_, ?_, ?_⟩
    · intro l tl e h hne
      cases l with
      | nil =>
        rw [show read_from (f + 1) ([] : List Nat) = .error .eof from rfl] at h
        injection h with h2
        exact absurd h2.symm hne
      | cons t rest =>
        simp only [List.cons_append]
        simp only [read_from] at h ⊢
        by_cases h0 : t = NULL_MARKER
        · rw [if_pos h0] at h; exact absurd h (by simp)
        · rw [if_neg h0] at h ⊢
          by_cases h1 : t = TRUE_MARKER
          · rw [if_pos h1] at h; exact absurd h (by simp)
          · rw [if_neg h1] at h ⊢
            by_cases h2 : t = FALSE_MARKER
            · rw [if_pos h2] at h; exact absurd h (by simp)
            · rw [if_neg h2] at h ⊢
              by_cases h3 : t = NUMBER_MARKER
              · rw [if_pos h3] at h ⊢
                by_cases h8 : rest.length < 8
                · rw [if_pos h8] at h
                  injection h with h2
                  exact absurd h2.symm hne
                · rw [if_neg h8] at h; exact absurd h (by simp)
              · rw [if_neg h3] at h ⊢
                by_cases h4 : t = STRING_MARKER
                · rw [if_pos h4] at h ⊢
                  split at h
                  next e1 heq =>
                    injection h with he1
                    rcases read_length_cases rest with ⟨n1, r1, hok⟩ | heof | hovf
                    · rw [heq] at hok; exact absurd hok (by simp)
                    · rw [heq] at heof
                      injection heof with h2
                      rw [h2] at he1
                      exact absurd he1.symm hne
                    · have hlift : read_length (rest ++ tl) =
                          .error .panicShiftOverflow :=
                        read_length_aux_overflow_extend rest tl 0 0 hovf
                      simp only [hlift]
                      rw [heq] at hovf
                      injection hovf with h2
                      rw [h2] at he1
                      rw [← he1]
                  next len r1 heq =>
                    have hext : read_length (rest ++ tl) = .ok (len, r1 ++ tl) :=
                      read_length_aux_extend rest tl 0 0 len r1 heq
                    simp only [hext]
                    by_cases hlen : r1.length < len
                    · rw [if_pos hlen] at h
                      injection h with h2
                      exact absurd h2.symm hne
                    · rw [if_neg hlen] at h
                      rw [if_neg (by simp; omega)]
                      rw [List.take_append_of_le_length (by omega)]
                      by_cases hutf : validUtf8 (List.take len r1) = true
                      · rw [if_pos hutf] at h; exact absurd h (by simp)
                      · rw [if_neg hutf] at h ⊢
                        exact h
                · rw [if_neg h4] at h ⊢
                  by_cases h5 : t = ARRAY_MARKER
                  · rw [if_pos h5] at h ⊢
                    split at h
                    next e1 heq =>
                      injection h with he1
                      rcases read_length_cases rest with ⟨n1, r1, hok⟩ | heof | hovf
                      · rw [heq] at hok; exact absurd hok (by simp)
                      · rw [heq] at heof
                        injection heof with h2
                        rw [h2] at he1
                        exact absurd he1.symm hne
                      · have hlift : read_length (rest ++ tl) =
                            .error .panicShiftOverflow :=
                          read_length_aux_overflow_extend rest tl 0 0 hovf
                        simp only [hlift]
                        rw [heq] at hovf
                        injection hovf with h2
                        rw [h2] at he1
                        rw [← he1]
                    next len r1 heq =>
                      have hext : read_length (rest ++ tl) = .ok (len, r1 ++ tl) :=
                        read_length_aux_extend rest tl 0 0 len r1 heq
                      simp only [hext]
                      split at h
                      next e2 heq2 =>
                        injection h with he2
                        rw [← he2] at hne
                        have hlift := ih2 len r1 tl e2 heq2 hne
                        simp only [hlift]
                        rw [he2]
                      next vs2 r2 heq2 => exact absurd h (by simp)
                  · rw [if_neg h5] at h ⊢
                    by_cases h6 : t = OBJECT_MARKER
                    · rw [if_pos h6] at h ⊢
                      split at h
                      next e1 heq =>
                        injection h with he1
                        rcases read_length_cases rest with ⟨n1, r1, hok⟩ | heof | hovf
                        · rw [heq] at hok; exact absurd hok (by simp)
                        · rw [heq] at heof
                          injection heof with h2
                          rw [h2] at he1
                          exact absurd he1.symm hne
                        · have hlift : read_length (rest ++ tl) =
                              .error .panicShiftOverflow :=
                            read_length_aux_overflow_extend rest tl 0 0 hovf
                          simp only [hlift]
                          rw [heq] at hovf
                          injection hovf with h2
                          rw [h2] at he1
                          rw [← he1]
                      next len r1 heq =>
                        have hext : read_length (rest ++ tl) = .ok (len, r1 ++ tl) :=
                          read_length_aux_extend rest tl 0 0 len r1 heq
                        simp only [hext]
                        split at h
                        next e2 heq2 =>
                          injection h with he2
                          rw [← he2] at hne
                          have hlift := ih3 len r1 tl e2 heq2 hne
                          simp only [hlift]
                          rw [he2]
                        next ps2 r2 heq2 => exact absurd h (by simp)
                    · rw [if_neg h6] at h ⊢
                      exact h
    · intro n l tl e h hne
      cases n with
      | zero => simp [read_many] at h
      | succ n =>
        simp only [read_many] at h ⊢
        split at h
        next e1 heq =>
          injection h with he1
          rw [← he1] at hne
          have hlift := ih1 l tl e1 heq hne
          simp only [hlift]
          rw [he1]
        next v1 r1 heq =>
          have hlift := exta l tl v1 r1 heq
          simp only [hlift]
          split at h
          next e2 heq2 =>
            injection h with he2
            rw [← he2] at hne
            have hlift2 := ih2 n r1 tl e2 heq2 hne
            simp only [hlift2]
            rw [he2]
          next vs2 r2 heq2 => exact absurd h (by simp)
    · intro n l tl e h hne
      cases n with
      | zero => simp [read_pairs] at h
      | succ n =>
        simp only [read_pairs] at h ⊢
        split at h
        next e1 heq =>
          injection h with he1
          rcases read_length_cases l with ⟨n1, r1, hok⟩ | heof | hovf
          · rw [heq] at hok; exact absurd hok (by simp)
          · rw [heq] at heof
            injection heof with h2
            rw [h2] at he1
            exact absurd he1.symm hne
          · have hlift : read_length (l ++ tl) = .error .panicShiftOverflow :=
              read_length_aux_overflow_extend l tl 0 0 hovf
            simp only [hlift]
            rw [heq] at hovf
            injection hovf with h2
            rw [h2] at he1
            rw [← he1]
        next klen r1 heq =>
          have hext : read_length (l ++ tl) = .ok (klen, r1 ++ tl) :=
            read_length_aux_extend l tl 0 0 klen r1 heq
          simp only [hext]
          by_cases hlen : r1.length < klen
          · rw [if_pos hlen] at h
            injection h with h2
            exact absurd h2.symm hne
          · rw [if_neg hlen] at h
            rw [if_neg (by simp; omega)]
            rw [List.take_append_of_le_length (by omega),
              List.drop_append_of_le_length (by omega)]
            by_cases hutf : validUtf8 (List.take klen r1) = true
            · rw [if_pos hutf] at h ⊢
              split at h
              next e2 heq2 =>
                injection h with he2
                rw [← he2] at hne
                have hlift := ih1 _ tl e2 heq2 hne
                simp only [hlift]
                rw [he2]
              next v2 r2 heq2 =>
                have hlift := exta _ tl v2 r2 heq2
                simp only [hlift]
                split at h
                next e3 heq3 =>
                  injection h with he3
                  rw [← he3] at hne
                  have hlift2 := ih3 n r2 tl e3 heq3 hne
                  simp only [hlift2]
                  rw [he3]
                next ps3 r3 heq3 => exact absurd h (by simp)
            · rw [if_neg hutf] at h ⊢
              exact h

/-- Fuel sufficiency: with fuel exceeding twice the source length, the
decoder never runs out of fuel — every recursive step either consumes input
or fails first. -/
theorem read_suf_all : ∀ f,
    (∀ l, 2 * l.length + 1 ≤ f → read_from f l ≠ .error .outOfFuel) ∧
    (∀ n l, 2 * l.length + 2 ≤ f → read_many f n l ≠ .error .outOfFuel) ∧
    (∀ n l, 2 * l.length + 2 ≤ f → read_pairs f n l ≠ .error .outOfFuel) := by
  intro f
  induction f with
  | zero =>
    refine ⟨?_, ?_, ?_⟩
    · intro l hf; exact absurd hf (by omega)
    · intro n l hf; exact absurd hf (by omega)
    · intro n l hf; exact absurd hf (by omega)
  | succ f ih =>
    obtain ⟨ih1, ih2, ih3⟩ := ih
    refine ⟨?_, ?_, ?_⟩
    · intro l hf hcontra
      cases l with
      | nil =>
        rw [show read_from (f + 1) ([] : List Nat) = .error .eof from rfl]
          at hcontra
        simp at hcontra
      | cons t rest =>
        simp only [read_from] at hcontra
        by_cases h0 : t = NULL_MARKER
        · rw [if_pos h0] at hcontra; simp at hcontra
        · rw [if_neg h0] at hcontra
          by_cases h1 : t = TRUE_MARKER
          · rw [if_pos h1] at hcontra; simp at hcontra
          · rw [if_neg h1] at hcontra
            by_cases h2 : t = FALSE_MARKER
            · rw [if_pos h2] at hcontra; simp at hcontra
            · rw [if_neg h2] at hcontra
              by_cases h3 : t = NUMBER_MARKER
              · rw [if_pos h3] at hcontra
                by_cases h8 : rest.length < 8
                · rw [if_pos h8] at hcontra; simp at hcontra
                · rw [if_neg h8] at hcontra; simp at hcontra
              · rw [if_neg h3] at hcontra
                by_cases h4 : t = STRING_MARKER
                · rw [if_pos h4] at hcontra
                  split at hcontra
                  next e1 heq =>
                    injection hcontra with he
                    rcases read_length_cases rest with ⟨n1, r1, hok⟩ | heof | hovf
                    · rw [heq] at hok; exact absurd hok (by simp)
                    · rw [heq] at heof
                      injection heof with h9
                      rw [h9] at he
                      exact DErr.noConfusion he
                    · rw [heq] at hovf
                      injection hovf with h9
                      rw [h9] at he
                      exact DErr.noConfusion he
                  next len r1 heq =>
                    by_cases hlen : r1.length < len
                    · rw [if_pos hlen] at hcontra; simp at hcontra
                    · rw [if_neg hlen] at hcontra
                      by_cases hutf : validUtf8 (List.take len r1) = true
                      · rw [if_pos hutf] at hcontra; simp at hcontra
                      · rw [if_neg hutf] at hcontra; simp at hcontra
                · rw [if_neg h4] at hcontra
                  by_cases h5 : t = ARRAY_MARKER
                  · rw [if_pos h5] at hcontra
                    split at hcontra
                    next e1 heq =>
                      injection hcontra with he
                      rcases read_length_cases rest with ⟨n1, r1, hok⟩ | heof | hovf
                      · rw [heq] at hok; exact absurd hok (by simp)
                      · rw [heq] at heof
                        injection heof with h9
                        rw [h9] at he
                        exact DErr.noConfusion he
                      · rw [heq] at hovf
                        injection hovf with h9
                        rw [h9] at he
                        exact DErr.noConfusion he
                    next len r1 heq =>
                      have hc := read_length_aux_consume rest 0 0 len r1 heq
                      split at hcontra
                      next e2 heq2 =>
                        injection hcontra with he
                        rw [he] at heq2
                        exact absurd heq2 (ih2 len r1
                          (by simp only [List.length_cons] at hf; omega))
                      next vs2 r2 heq2 => simp at hcontra
                  · rw [if_neg h5] at hcontra
                    by_cases h6 : t = OBJECT_MARKER
                    · rw [if_pos h6] at hcontra
                      split at hcontra
                      next e1 heq =>
                        injection hcontra with he
                        rcases read_length_cases rest with ⟨n1, r1, hok⟩ | heof | hovf
                        · rw [heq] at hok; exact absurd hok (by simp)
                        · rw [heq] at heof
                          injection heof with h9
                          rw [h9] at he
                          exact DErr.noConfusion he
                        · rw [heq] at hovf
                          injection hovf with h9
                          rw [h9] at he
                          exact DErr.noConfusion he
                      next len r1 heq =>
                        have hc := read_length_aux_consume rest 0 0 len r1 heq
                        split at hcontra
                        next e2 heq2 =>
                          injection hcontra with he
                          rw [he] at heq2
                          exact absurd heq2 (ih3 len r1
                            (by simp only [List.length_cons] at hf; omega))
                        next ps2 r2 heq2 => simp at hcontra
                    · rw [if_neg h6] at hcontra; simp at hcontra
    · intro n l hf hcontra
      cases n with
      | zero =>
        rw [show read_many (f + 1) 0 l = .ok ([], l) from rfl] at hcontra
        simp at hcontra
      | succ n =>
        simp only [read_many] at hcontra
        split at hcontra
        next e1 heq =>
          injection hcontra with he
          rw [he] at heq
          exact absurd heq (ih1 l (by omega))
        next v1 r1 heq =>
          have hc := read_from_consume f l v1 r1 heq
          split at hcontra
          next e2 heq2 =>
            injection hcontra with he
            rw [he] at heq2
            exact absurd heq2 (ih2 n r1 (by omega))
          next vs2 r2 heq2 => simp at hcontra
    · intro n l hf hcontra
      cases n with
      | zero =>
        rw [show read_pairs (f + 1) 0 l = .ok ([], l) from rfl] at hcontra
        simp at hcontra
      | succ n =>
        simp only [read_pairs] at hcontra
        split at hcontra
        next e1 heq =>
          injection hcontra with he
          rcases read_length_cases l with ⟨n1, r1, hok⟩ | heof | hovf
          · rw [heq] at hok; exact absurd hok (by simp)
          · rw [heq] at heof
            injection heof with h9
            rw [h9] at he
            exact DErr.noConfusion he
          · rw [heq] at hovf
            injection hovf with h9
            rw [h9] at he
            exact DErr.noConfusion he
        next klen r1 heq =>
          have hc := read_length_aux_consume l 0 0 klen r1 heq
          by_cases hlen : r1.length < klen
          · rw [if_pos hlen] at hcontra; simp at hcontra
          · rw [if_neg hlen] at hcontra
            by_cases hutf : validUtf8 (List.take klen r1) = true
            · rw [if_pos hutf] at hcontra
              split at hcontra
              next e2 heq2 =>
                injection hcontra with he
                rw [he] at heq2
                exact absurd heq2 (ih1 _
                  (by simp only [List.length_drop]; omega))
              next v2 r2 heq2 =>
                have hc2 := read_from_consume f _ v2 r2 heq2
                simp only [List.length_drop] at hc2
                split at hcontra
                next e3 heq3 =>
                  injection hcontra with he
                  rw [he] at heq3
                  exact absurd heq3 (ih3 n r2 (by omega))
                next ps3 r3 heq3 => simp at hcontra
            · rw [if_neg hutf] at hcontra; simp at hcontra

/-- Sufficiency for `read_from` alone. -/
theorem read_from_fuel_enough (f : Nat) (l : List Nat)
    (hf : 2 * l.length + 1 ≤ f) : read_from f l ≠ .error .outOfFuel :=
  (read_suf_all f).1 l hf

/-- Fuel monotonicity for `read_from`: a settled outcome persists at any
larger fuel. -/
theorem read_from_mono_ge (f g : Nat) (hfg : f ≤ g) (l : List Nat)
    (res : Except DErr (JValue × List Nat)) (h : read_from f l = res)
    (hne : res ≠ .error .outOfFuel) : read_from g l = res := by
  induction g, hfg using Nat.le_induction with
  | base => exact h
  | succ g hfg ihg => exact (read_mono_all g).1 l res ihg hne

/-- Inversion: `fromBeBytes8` inverts `beBytes8` on every `u64` bit pattern. -/
theorem fromBe_beBytes8 (n : Nat) (hn : n < 2 ^ 64) :
    fromBeBytes8 (beBytes8 n) = n := by
  simp only [beBytes8, fromBeBytes8, List.foldl]
  omega

/-- Decoding the array-loop bytes returns the original elements, given the
round-trip property for each element. -/
theorem read_many_roundtrip (vs : List JValue)
    (hp : ∀ v ∈ vs, wfB v = true → ∀ f rest, 2 * (serialize v).length ≤ f →
      read_from f (serialize v ++ rest) = .ok (v, rest))
    (hw : wfBL vs = true) :
    ∀ f rest, 2 * (serializeL vs).length + 2 ≤ f →
      read_many f vs.length (serializeL vs ++ rest) = .ok (vs, rest) := by
  induction vs with
  | nil =>
    intro f rest hf
    rw [serializeL_nil, List.nil_append]
    simp only [List.length_nil]
    simp [read_many]
  | cons v vs ih =>
    intro f rest hf
    rw [serializeL_cons] at hf ⊢
    simp only [wfBL, Bool.and_eq_true] at hw
    obtain ⟨hwv, hwvs⟩ := hw
    have hsv := serialize_len_pos v
    simp only [List.length_append] at hf
    cases f with
    | zero => omega
    | succ f1 =>
      simp only [List.length_cons, read_many]
      rw [List.append_assoc]
      rw [hp v (by simp) hwv f1 (serializeL vs ++ rest) (by omega)]
      have hih := ih (fun x hx => hp x (by simp [hx])) hwvs f1 rest (by omega)
      simp only [hih]

/-- Decoding the object-loop bytes returns the original pairs, given the
round-trip property for each value. -/
theorem read_pairs_roundtrip (ps : List (List Nat × JValue))
    (hp : ∀ kv ∈ ps, wfB kv.2 = true → ∀ f rest, 2 * (serialize kv.2).length ≤ f →
      read_from f (serialize kv.2 ++ rest) = .ok (kv.2, rest))
    (hw : wfBP ps = true) :
    ∀ f rest, 2 * (serializeP ps).length + 2 ≤ f →
      read_pairs f ps.length (serializeP ps ++ rest) = .ok (ps, rest) := by
  induction ps with
  | nil =>
    intro f rest hf
    rw [serializeP_nil, List.nil_append]
    simp only [List.length_nil]
    simp [read_pairs]
  | cons kv ps ih =>
    obtain ⟨k, v⟩ := kv
    have hpv : wfB v = true → ∀ f rest, 2 * (serialize v).length ≤ f →
        read_from f (serialize v ++ rest) = .ok (v, rest) :=
      hp (k, v) (by simp)
    intro f rest hf
    rw [serializeP_cons] at hf ⊢
    simp only [wfBP, Bool.and_eq_true, decide_eq_true_eq] at hw
    obtain ⟨⟨⟨hutf, hklen⟩, hwv⟩, hwps⟩ := hw
    have hsv := serialize_len_pos v
    have hwlk := write_length_len_pos k.length
    simp only [List.length_append] at hf
    cases f with
    | zero => omega
    | succ f1 =>
      simp only [List.length_cons, read_pairs]
      simp only [List.append_assoc]
      simp only [read_length_write_length k.length hklen
        (k ++ (serialize v ++ (serializeP ps ++ rest)))]
      rw [if_neg (by simp only [List.length_append]; omega),
        if_pos (by rw [List.take_left]; exact hutf),
        List.take_left, List.drop_left]
      rw [hpv hwv f1 (serializeP ps ++ rest) (by omega)]
      have hih := ih (fun x hx => hp x (by simp [hx])) hwps f1 rest (by omega)
      simp only [hih]

/-- Round-trip of the full codec: decoding `serialize v ++ rest` with enough
fuel yields `v` and leaves `rest`. -/
theorem read_from_serialize (v : JValue) :
    wfB v = true → ∀ f rest, 2 * (serialize v).length ≤ f →
      read_from f (serialize v ++ rest) = .ok (v, rest) := by
  induction v using JValue.inductionOn with
  | hNull =>
    intro _ f rest hf
    rw [serialize_null] at hf ⊢
    simp only [List.length_cons, List.length_nil] at hf
    cases f with
    | zero => omega
    | succ f1 =>
      rw [List.singleton_append]
      simp only [read_from]
      simp
  | hTrue =>
    intro _ f rest hf
    rw [serialize_true] at hf ⊢
    simp only [List.length_cons, List.length_nil] at hf
    cases f with
    | zero => omega
    | succ f1 =>
      rw [List.singleton_append]
      simp only [read_from]
      rw [if_neg (by decide)]
      simp
  | hFalse =>
    intro _ f rest hf
    rw [serialize_false] at hf ⊢
    simp only [List.length_cons, List.length_nil] at hf
    cases f with
    | zero => omega
    | succ f1 =>
      rw [List.singleton_append]
      simp only [read_from]
      rw [if_neg (by decide), if_neg (by decide)]
      simp
  | hNum n =>
    intro hw f rest hf
    simp only [wfB, decide_eq_true_eq] at hw
    rw [serialize_number] at hf ⊢
    simp only [List.length_cons] at hf
    cases f with
    | zero => omega
    | succ f1 =>
      simp only [List.cons_append, read_from]
      rw [if_neg (by decide), if_neg (by decide), if_neg (by decide),
        if_pos trivial]
      have hlen8 : (beBytes8 n).length = 8 := by simp [beBytes8]
      rw [if_neg (by simp only [List.length_append, hlen8]; omega)]
      rw [← hlen8, List.take_left, List.drop_left]
      rw [fromBe_beBytes8 n hw]
  | hStr s =>
    intro hw f rest hf
    simp only [wfB, Bool.and_eq_true, decide_eq_true_eq] at hw
    obtain ⟨hutf, hslen⟩ := hw
    rw [serialize_string] at hf ⊢
    simp only [List.length_cons, List.length_append] at hf
    cases f with
    | zero => omega
    | succ f1 =>
      simp only [List.cons_append, List.append_assoc, read_from]
      rw [if_neg (by decide), if_neg (by decide), if_neg (by decide),
        if_neg (by decide), if_pos trivial]
      simp only [read_length_write_length s.length hslen (s ++ rest)]
      rw [if_neg (by simp only [List.length_append]; omega),
        if_pos (by rw [List.take_left]; exact hutf),
        List.take_left, List.drop_left]
  | hArr vs ih =>
    intro hw f rest hf
    simp only [wfB, Bool.and_eq_true, decide_eq_true_eq] at hw
    obtain ⟨hlen64, hwl⟩ := hw
    rw [serialize_array] at hf ⊢
    have hwlp := write_length_len_pos vs.length
    simp only [List.length_cons, List.length_append] at hf
    cases f with
    | zero => omega
    | succ f1 =>
      simp only [List.cons_append, List.append_assoc, read_from]
      rw [if_neg (by decide), if_neg (by decide), if_neg (by decide),
        if_neg (by decide), if_neg (by decide), if_pos trivial]
      rw [read_length_write_length vs.length hlen64 (serializeL vs ++ rest)]
      have hmany := read_many_roundtrip vs ih hwl f1 rest (by omega)
      simp only [hmany]
  | hObj ps ih =>
    intro hw f rest hf
    simp only [wfB, Bool.and_eq_true, decide_eq_true_eq] at hw
    obtain ⟨hlen64, hwp⟩ := hw
    rw [serialize_object] at hf ⊢
    have hwlp := write_length_len_pos ps.length
    simp only [List.length_cons, List.length_append] at hf
    cases f with
    | zero => omega
    | succ f1 =>
      simp only [List.cons_append, List.append_assoc, read_from]
      rw [if_neg (by decide), if_neg (by decide), if_neg (by decide),
        if_neg (by decide), if_neg (by decide), if_neg (by decide),
        if_pos trivial]
      rw [read_length_write_length ps.length hlen64 (serializeP ps ++ rest)]
      have hpairs := read_pairs_roundtrip ps ih hwp f1 rest (by omega)
      simp only [hpairs]

/-! ### Decode helpers -/

/-- Decoding an encoding with the fuel `decode` supplies succeeds and
consumes everything. -/
theorem decode_serialize (v : JValue) (hw : wfB v = true) :
    decode (serialize v) = .ok (v, []) := by
  simp only [decode]
  have h := read_from_serialize v hw (2 * (serialize v).length + 1) []
    (by omega)
  simpa using h

/-! ### The claims -/

/-- C1: for every constructible `JValue` tree (numbers are `u64` bit
patterns, strings and object keys are valid UTF-8, lengths fit in `u64` —
the conditions captured by `wfB`), decoding the bytes produced by encoding
the tree yields a structurally equal tree (and consumes the whole stream),
preserving array element order and object pair order; equality of `JValue`
lists is positional, so order is part of the statement. -/
theorem C1_roundtrip (v : JValue) (hw : wfB v = true) :
    decode (serialize v) = .ok (v, []) :=
  decode_serialize v hw

/-- Witness for C1 at the concrete tree
`Object [("a", Number 1.5), ("b", Array [True, Null])]` (the UTF-8 bytes of
`"a"`/`"b"` are `0x61`/`0x62`; the IEEE-754 bit pattern of `1.5` is
`0x3FF8000000000000`). -/
theorem C1_roundtrip_witness :
    wfB (.Object [([0x61], .Number 0x3FF8000000000000),
      ([0x62], .Array [.True, .Null])]) = true ∧
    decode (serialize (.Object [([0x61], .Number 0x3FF8000000000000),
      ([0x62], .Array [.True, .Null])])) =
      .ok (.Object [([0x61], .Number 0x3FF8000000000000),
        ([0x62], .Array [.True, .Null])], []) :=
  ⟨rfl, C1_roundtrip _ rfl⟩

/-- C2: encoding `Object [("a", Number 1.5), ("b", Array [True, Null])]`
produces exactly the 19 bytes
`06 02 01 61 03 3F F8 00 00 00 00 00 00 01 62 05 02 01 00`.  `1.5` is the
`f64` with bit pattern `0x3FF8000000000000`, whose big-endian bytes are
`3F F8 00 00 00 00 00 00`. -/
theorem C2_concrete_bytes :
    serialize (.Object [([0x61], .Number 0x3FF8000000000000),
      ([0x62], .Array [.True, .Null])]) =
      [0x06, 0x02, 0x01, 0x61, 0x03, 0x3F, 0xF8, 0x00, 0x00, 0x00, 0x00,
       0x00, 0x00, 0x01, 0x62, 0x05, 0x02, 0x01, 0x00] := rfl

/-- C3: for every `u64` value `n`, decoding the varint bytes produced by
encoding `n` yields `n` (consuming them exactly); the encoding of 0 is the
single byte `0x00`, the encoding of 127 is one byte, and the encoding of 128
is the two bytes `0x80 0x01`. -/
theorem C3_varint (n : Nat) (hn : n < 2 ^ 64) :
    read_length (write_length n) = .ok (n, []) ∧
    write_length 0 = [0x00] ∧ (write_length 127).length = 1 ∧
    write_length 128 = [0x80, 0x01] := by
  refine ⟨?_, rfl, rfl, rfl⟩
  have h := read_length_write_length n hn []
  simpa using h

/-- Witness for C3 at `n = 12345678901234567890`. -/
theorem C3_varint_witness :
    12345678901234567890 < 2 ^ 64 ∧
    (read_length (write_length 12345678901234567890) =
        .ok (12345678901234567890, []) ∧
      write_length 0 = [0x00] ∧ (write_length 127).length = 1 ∧
      write_length 128 = [0x80, 0x01]) :=
  ⟨by norm_num, C3_varint 12345678901234567890 (by norm_num)⟩

/-- C4: the claim says a stream starting with tag byte `0x07` decodes to a
malformed-input error result; the code instead hits `panic!("Invalid
marker")` (source line 196), aborting the process.  This theorem evaluates
the code at the failing input: the outcome is the modelled panic, not an
error result (`eof` is the only outcome the code returns to its caller). -/
theorem C4_invalid_marker_panics :
    decode [0x07] = .error .panicInvalidMarker := rfl

/-- C5: the claim says a String payload (or object key) of invalid UTF-8
decodes to a malformed-input error result; the code instead calls
`std::str::from_utf8(&buf).unwrap()` (source lines 173 and 190), which
panics.  This theorem evaluates the code at both failing inputs (a String
`[0xFF]` and an object key `[0xFF]`): the outcome is the modelled panic. -/
theorem C5_invalid_utf8_panics :
    decode [0x04, 0x01, 0xFF] = .error .panicInvalidUtf8 ∧
    decode [0x06, 0x01, 0x01, 0xFF, 0x00] = .error .panicInvalidUtf8 :=
  ⟨rfl, rfl⟩

/-- C6: dropping the last `k ≥ 1` bytes of any valid encoding and decoding
the rest yields exactly the data-truncation failure `eof` (the decoder's
`read_exact` error) — never a panic, and never a successfully decoded
value. -/
theorem C6_truncation (v : JValue) (k : Nat) (hw : wfB v = true)
    (hk1 : 1 ≤ k) (hk2 : k ≤ (serialize v).length) :
    decode ((serialize v).take ((serialize v).length - k)) = .error .eof := by
  simp only [decode]
  have hpq : (serialize v).take ((serialize v).length - k) ++
      (serialize v).drop ((serialize v).length - k) = serialize v :=
    List.take_append_drop _ _
  have hql : ((serialize v).drop ((serialize v).length - k)).length = k := by
    simp only [List.length_drop]
    omega
  have hpl : ((serialize v).take ((serialize v).length - k)).length =
      (serialize v).length - k := by
    simp only [List.length_take]
    omega
  set p := (serialize v).take ((serialize v).length - k) with hp
  set q := (serialize v).drop ((serialize v).length - k) with hq0
  have hfull : read_from (2 * (serialize v).length + 1) (serialize v) =
      .ok (v, []) := by
    have h := read_from_serialize v hw (2 * (serialize v).length + 1) []
      (by omega)
    simpa using h
  cases hres : read_from (2 * p.length + 1) p with
  | ok res =>
    exfalso
    obtain ⟨w, r⟩ := res
    have hext := (read_ext_all (2 * p.length + 1)).1 p q w r hres
    have hmono := read_from_mono_ge (2 * p.length + 1)
      (2 * (serialize v).length + 1) (by omega) (p ++ q) _ hext (by simp)
    rw [hpq, hfull] at hmono
    simp only [Except.ok.injEq, Prod.mk.injEq] at hmono
    obtain ⟨-, hr⟩ := hmono
    have hq : q.length = 0 := by
      have hlen := congrArg List.length hr
      simp only [List.length_append, List.length_nil] at hlen
      omega
    omega
  | error e =>
    by_cases he : e = .eof
    · rw [he]
    · exfalso
      have hnf := read_from_fuel_enough (2 * p.length + 1) p (by omega)
      have hneof : e ≠ .outOfFuel := by
        intro hx
        rw [hx] at hres
        exact hnf hres
      have herr := (read_err_all (2 * p.length + 1)).1 p q e hres he
      have hmono := read_from_mono_ge (2 * p.length + 1)
        (2 * (serialize v).length + 1) (by omega) (p ++ q) _ herr
        (by simpa using hneof)
      rw [hpq, hfull] at hmono
      exact absurd hmono (by simp)

/-- Witness for C6: the encoding of the string `"a"` is `[04, 01, 61]`;
dropping its last byte and decoding yields `eof`. -/
theorem C6_truncation_witness :
    wfB (.String [0x61]) = true ∧ 1 ≤ 1 ∧
    1 ≤ (serialize (.String [0x61])).length ∧
    decode ((serialize (.String [0x61])).take
      ((serialize (.String [0x61])).length - 1)) = .error .eof :=
  ⟨rfl, Nat.le_refl 1, by decide,
    C6_truncation (.String [0x61]) 1 rfl (Nat.le_refl 1) (by decide)⟩

/-- C7: encoding is deterministic and independent of the writer's prior
state: running `serialize_to` on the same value over any two sink states
appends byte-identical output and reports the same byte count. -/
theorem C7_deterministic (v : JValue) (w1 w2 : List Nat) :
    (serialize_to w1 v).1.drop w1.length =
      (serialize_to w2 v).1.drop w2.length ∧
    (serialize_to w1 v).2 = (serialize_to w2 v).2 := by
  rw [serialize_to_eq v w1, serialize_to_eq v w2]
  simp [List.drop_left]

/-- C8: duplicate object keys survive the codec verbatim: an object whose
pair list repeats keys round-trips to the identical ordered pair list — no
deduplication, no last-wins resolution. -/
theorem C8_duplicate_keys (ps : List (List Nat × JValue))
    (hw : wfB (.Object ps) = true) (_hdup : ¬ (ps.map Prod.fst).Nodup) :
    decode (serialize (.Object ps)) = .ok (.Object ps, []) :=
  decode_serialize _ hw

/-- Witness for C8 at `Object [("a", Null), ("a", True)]`, whose key list
`["a", "a"]` has a duplicate. -/
theorem C8_duplicate_keys_witness :
    wfB (.Object [([0x61], .Null), ([0x61], .True)]) = true ∧
    ¬ (([([0x61], JValue.Null), ([0x61], JValue.True)].map Prod.fst).Nodup) ∧
    decode (serialize (.Object [([0x61], .Null), ([0x61], .True)])) =
      .ok (.Object [([0x61], .Null), ([0x61], .True)], []) :=
  ⟨rfl, by decide,
    C8_duplicate_keys [([0x61], .Null), ([0x61], .True)] rfl (by decide)⟩

/-- C9 (counterexample to the claim as stated): on the source of eleven
`0x80` bytes — which begins with ten or more continuation-flagged bytes —
`read_length` reaches shift amount 70 and the left shift `<< shift`
overflows (an arithmetic panic under Rust's checked arithmetic), rather than
returning a decoded `u64` or an I/O error. -/
theorem C9_counterexample :
    read_length (List.replicate 11 0x80) = .error .panicShiftOverflow := rfl

/-- C9 (amended): `read_length` returns a decoded `u64` or the I/O error
`eof` for every byte source EXCEPT those whose first ten bytes all have the
continuation bit set and which contain an eleventh byte; exactly on those
sources the internal shift amount reaches 70 ≥ 64 and the left-shift
overflows (a panic under checked arithmetic).  The characterization is an
iff, and the only possible outcomes are success, `eof`, and the shift
overflow. -/
theorem C9_read_length_outcomes (l : List Nat) :
    (read_length l = .error .panicShiftOverflow ↔
      10 < l.length ∧ ∀ b ∈ l.take 10, b &&& 128 ≠ 0) ∧
    (read_length l = .error .eof ∨
      read_length l = .error .panicShiftOverflow ∨
      ∃ n r, read_length l = .ok (n, r)) := by
  refine ⟨read_length_overflow_iff l, ?_⟩
  rcases read_length_cases l with hok | heof | hovf
  · right; right; exact hok
  · left; exact heof
  · right; left; exact hovf

/-- C10: the varint decoder accepts the non-canonical two-byte encoding
`80 00` of 0, returning the same value as the canonical one-byte `00`; the
encoder produces `[00]` for 0, whose comparison with `[80, 00]` is `false` —
so the accepted byte sequence `80 00` is not reproduced by encoding the
value it decodes to. -/
theorem C10_overlong_varint :
    read_length [0x80, 0x00] = .ok (0, []) ∧
    read_length [0x00] = .ok (0, []) ∧
    write_length 0 = [0x00] ∧
    (write_length 0 == [0x80, 0x00]) = false :=
  ⟨rfl, rfl, rfl, rfl⟩

end Jsonb
